import Mathlib

/-!
Verification of the micro-risks warranty calculator (`src/microrisks.py`).

The development shallowly embeds the two logical components of the program:

* the risk estimator `get_actuarial_data_from_llm` (lines 25-62), including
  the Python string cleaning `response.text.replace("```json", "")
  .replace("```", "").strip()` and the `json.loads` parse with its
  exception-to-fallback policy, and
* the decision engine (lines 115-136): `expected_loss`, `net_cost`, the
  BUY / TOSS_UP / SKIP verdict chain and the habit-rule caption.

Strings are embedded as `List Char`.  Machine floats are embedded as exact
rationals (all constants of the program, `0.05` and `/ 100`, are exact).
`json.loads` is embedded by an executable parser for the JSON fragment the
program exchanges (flat objects whose values are integers or escape-free
strings); out-of-fragment inputs are parse failures, which the estimator
maps to its fallback exactly as the `except` branch does.
-/

/-- Python truthiness for the `api_key` string: `not api_key` holds exactly
for the empty string. -/
def pyFalsy (s : List Char) : Prop := s = []

instance (s : List Char) : Decidable (pyFalsy s) := by
  unfold pyFalsy; infer_instance

/-- Whitespace characters stripped by Python `str.strip()` (ASCII range). -/
def isPyWs (c : Char) : Bool :=
  c == ' ' || c == '\t' || c == '\n' || c == '\r' || c == '\x0b' || c == '\x0c'

/-- Python `str.strip()`: drop whitespace from the left, then from the
right (via reversal). -/
def pyStrip (l : List Char) : List Char :=
  ((l.dropWhile isPyWs).reverse.dropWhile isPyWs).reverse

/-- Fuelled worker for `removeAll`.  One unit of fuel is spent per scanned
position, which mirrors the left-to-right non-overlapping scan of Python
`str.replace(pat, "")`. -/
def removeAllF (pat : List Char) : Nat → List Char → List Char
  | _, [] => []
  | 0, l => l
  | fuel + 1, c :: rest =>
    if pat ≠ [] ∧ pat.isPrefixOf (c :: rest) = true then
      removeAllF pat fuel (rest.drop (pat.length - 1))
    else
      c :: removeAllF pat fuel rest

/-- Python `s.replace(pat, "")` for a non-empty `pat`: remove every
non-overlapping occurrence of `pat`, scanning left to right. -/
def removeAll (pat l : List Char) : List Char :=
  removeAllF pat l.length l

/-- The fence-with-language marker removed first on line 56. -/
def jsonFence : List Char := "```json".toList

/-- The bare code-fence marker removed second on line 56. -/
def tickFence : List Char := "```".toList

/-- Line 56: `response.text.replace("```json", "").replace("```", "").strip()`. -/
def clean_text (t : List Char) : List Char :=
  pyStrip (removeAll tickFence (removeAll jsonFence t))

/-- A service response consisting of valid JSON wrapped in code-fence
markers, the usual LLM markdown shape. -/
def wrapFence (s : List Char) : List Char :=
  "```json\n".toList ++ s ++ "\n```".toList

/-- JSON values of the fragment the program exchanges: integers and
escape-free strings. -/
inductive JVal where
  | int (n : Int)
  | str (s : List Char)
deriving DecidableEq

/-- A parsed JSON object, as the Python dict `json.loads` returns:
an ordered list of key/value pairs. -/
abbrev JObj := List (List Char × JVal)

/-- JSON insignificant whitespace. -/
def isJsonWs (c : Char) : Bool :=
  c == ' ' || c == '\t' || c == '\n' || c == '\r'

/-- Skip insignificant whitespace. -/
def skipWs (l : List Char) : List Char := l.dropWhile isJsonWs

/-- Parse a string body after the opening quote, up to the closing quote.
Escape sequences are outside the modelled fragment and fail. -/
def parseStrBody : List Char → Option (List Char × List Char)
  | [] => none
  | c :: rest =>
    if c == '"' then some ([], rest)
    else if c == '\\' then none
    else
      match parseStrBody rest with
      | none => none
      | some (s, r) => some (c :: s, r)

/-- Parse a non-empty digit run into a natural number. -/
def parseNat (l : List Char) : Option (Nat × List Char) :=
  let ds := l.takeWhile Char.isDigit
  if ds = [] then none
  else some (ds.foldl (fun a c => a * 10 + (c.toNat - 48)) 0, l.dropWhile Char.isDigit)

/-- Parse an optionally negated integer literal. -/
def parseIntVal : List Char → Option (Int × List Char)
  | '-' :: rest => (parseNat rest).map (fun p => (-(p.1 : Int), p.2))
  | l => (parseNat l).map (fun p => ((p.1 : Int), p.2))

/-- Parse a value of the fragment: a string or an integer. -/
def parseValue (l : List Char) : Option (JVal × List Char) :=
  match skipWs l with
  | '"' :: rest => (parseStrBody rest).map (fun p => (JVal.str p.1, p.2))
  | l' => (parseIntVal l').map (fun p => (JVal.int p.1, p.2))

/-- Parse the members of an object, after the opening brace, returning the
pairs and the remainder after the closing brace.  Fuel bounds the member
count; `jsonParse` supplies more fuel than any input can consume. -/
def parseMembers : Nat → List Char → Option (JObj × List Char)
  | 0, _ => none
  | fuel + 1, l =>
    match skipWs l with
    | '"' :: rest =>
      match parseStrBody rest with
      | none => none
      | some (k, r1) =>
        match skipWs r1 with
        | ':' :: r2 =>
          match parseValue r2 with
          | none => none
          | some (v, r3) =>
            match skipWs r3 with
            | ',' :: r4 =>
              match parseMembers fuel r4 with
              | none => none
              | some (m, r5) => some ((k, v) :: m, r5)
            | '}' :: r4 => some ([(k, v)], r4)
            | _ => none
        | _ => none
    | _ => none

/-- Model of `json.loads` on the exchanged fragment: a single flat object
with integer or string values and nothing but whitespace after it. -/
def jsonParse (l : List Char) : Option JObj :=
  match skipWs l with
  | '{' :: rest =>
    match skipWs rest with
    | '}' :: r2 => if skipWs r2 = [] then some [] else none
    | _ =>
      match parseMembers (l.length + 1) rest with
      | none => none
      | some (m, r) => if skipWs r = [] then some m else none
  | _ => none

/-- Python `d[k]` on a dict built by `json.loads`: the value of the last
occurrence of the key, or `none` (a `KeyError` at the access site). -/
def dictGet (k : List Char) (d : JObj) : Option JVal :=
  (d.reverse.find? (fun p => p.1 == k)).map Prod.snd

/-- The fixed fallback estimate returned by the `except` branch (line 62). -/
def fallbackEstimate : JObj :=
  [("probability".toList, JVal.int 5),
   ("reason".toList, JVal.str "AI Failed, using average".toList),
   ("source".toList, JVal.str "Estimation".toList)]

/-- A valid JSON response whose `reason` string itself contains a bare
code-fence marker, used to exhibit the global reach of the cleaning. -/
def backtickResponse : List Char :=
  "\x7b\"probability\": 9, \"reason\": \"avoid ``` fences\", \"source\": \"Repair db\"\x7d".toList

/-- Outcome of one run of the estimator: the returned value (`none` models
Python `None`) and whether the service was consulted. -/
structure EstimatorRun where
  result : Option JObj
  network_called : Bool
deriving DecidableEq

/-- Lines 25-62.  `api_key` is the sidebar credential (empty = absent);
`product_name` is interpolated into the prompt and does not affect control
flow; `svc` is the outcome of `model.generate_content(prompt)`: either a
raised exception (`Except.error`) or the response text (`Except.ok`).
A `json.loads` failure raises and lands in the same `except` branch. -/
def get_actuarial_data_from_llm (api_key product_name : List Char)
    (svc : Except (List Char) (List Char)) : EstimatorRun :=
  if pyFalsy api_key then
    { result := none, network_called := false }
  else
    match svc with
    | .error _ =>
      { result := some fallbackEstimate, network_called := true }
    | .ok text =>
      match jsonParse (clean_text text) with
      | none => { result := some fallbackEstimate, network_called := true }
      | some data => { result := some data, network_called := true }

/-- The categorical recommendation (lines 126-131). -/
inductive Verdict where
  | BUY
  | TOSS_UP
  | SKIP
deriving DecidableEq

/-- The derived values of one evaluation: the two numeric fields, the
verdict, and the habit-rule threshold (`some expected_loss` when the
caption of lines 134-136 is emitted, else `none`). -/
structure EvalResult where
  expected_loss : ℚ
  net_cost : ℚ
  verdict : Verdict
  habit : Option ℚ
deriving DecidableEq

/-- Lines 115-136: `expected_loss = item_cost * (prob_fail / 100)`,
`net_cost = warranty_cost - expected_loss`, the verdict chain
`if expected_loss > warranty_cost ... elif net_cost < item_cost * 0.05 ...
else ...`, and the habit caption guard `if expected_loss < warranty_cost`. -/
def evaluate (item_cost prob_fail warranty_cost : ℚ) : EvalResult :=
  let el : ℚ := item_cost * (prob_fail / 100)
  let nc : ℚ := warranty_cost - el
  { expected_loss := el
    net_cost := nc
    verdict :=
      if el > warranty_cost then Verdict.BUY
      else if nc < item_cost * (0.05 : ℚ) then Verdict.TOSS_UP
      else Verdict.SKIP
    habit := if el < warranty_cost then some el else none }

/-- The verdict chain alone (lines 126-131), defined without any reference
to the habit rule: used to state that the habit rule cannot influence it. -/
def verdictOnly (item_cost prob_fail warranty_cost : ℚ) : Verdict :=
  if item_cost * (prob_fail / 100) > warranty_cost then Verdict.BUY
  else if warranty_cost - item_cost * (prob_fail / 100) < item_cost * (0.05 : ℚ) then
    Verdict.TOSS_UP
  else Verdict.SKIP

/-! ## Helper lemmas on the string-cleaning embedding -/

/-- `isPrefixOf` coincides with the existence of a completing suffix. -/
lemma isPrefixOf_exists : ∀ pat l : List Char,
    pat.isPrefixOf l = true ↔ ∃ t, pat ++ t = l := by
  intro pat
  induction pat with
  | nil =>
    intro l
    simp [List.isPrefixOf]
  | cons a as ih =>
    intro l
    cases l with
    | nil =>
      simp [List.isPrefixOf]
    | cons b bs =>
      simp only [List.isPrefixOf, Bool.and_eq_true, beq_iff_eq, ih bs]
      constructor
      · rintro ⟨hab, t, ht⟩
        exact ⟨t, by simp [hab, ht]⟩
      · rintro ⟨t, ht⟩
        have h1 : a = b := (List.cons.injEq a (as ++ t) b bs).mp ht |>.1
        have h2 : as ++ t = bs := (List.cons.injEq a (as ++ t) b bs).mp ht |>.2
        exact ⟨h1, t, h2⟩

/-- If a non-empty pattern matches at a cons cell, its head is that cell's
character, hence the character occurs in the pattern. -/
lemma mem_of_isPrefixOf_cons {pat : List Char} {c : Char} {l : List Char}
    (hne : pat ≠ []) (h : pat.isPrefixOf (c :: l) = true) : c ∈ pat := by
  obtain ⟨t, ht⟩ := (isPrefixOf_exists pat (c :: l)).mp h
  cases pat with
  | nil => exact absurd rfl hne
  | cons p ps =>
    have : p = c := ((List.cons.injEq p (ps ++ t) c l).mp ht).1
    simp [this]

/-- Two prefixes of one list are comparable. -/
lemma append_overlap : ∀ a b t u : List Char,
    a ++ t = b ++ u → (∃ v, a ++ v = b) ∨ (∃ v, b ++ v = a) := by
  intro a
  induction a with
  | nil =>
    intro b t u _
    exact Or.inl ⟨b, rfl⟩
  | cons x a' ih =>
    intro b t u h
    cases b with
    | nil => exact Or.inr ⟨x :: a', rfl⟩
    | cons y b' =>
      have hxy : x = y := ((List.cons.injEq x (a' ++ t) y (b' ++ u)).mp h).1
      have htl : a' ++ t = b' ++ u := ((List.cons.injEq x (a' ++ t) y (b' ++ u)).mp h).2
      rcases ih b' t u htl with ⟨v, hv⟩ | ⟨v, hv⟩
      · exact Or.inl ⟨v, by simp [hxy, hv]⟩
      · exact Or.inr ⟨v, by simp [← hxy, hv]⟩

/-- Left cancellation of list append. -/
lemma append_cancel_left_char : ∀ a b c : List Char, a ++ b = a ++ c → b = c := by
  intro a
  induction a with
  | nil => intro b c h; simpa using h
  | cons x a' ih =>
    intro b c h
    exact ih b c ((List.cons.injEq x (a' ++ b) x (a' ++ c)).mp h).2

/-- Dropping at most the length of the first summand stays inside it. -/
lemma drop_append_of_le : ∀ (a b : List Char) (n : Nat), n ≤ a.length →
    (a ++ b).drop n = a.drop n ++ b := by
  intro a
  induction a with
  | nil =>
    intro b n h
    have : n = 0 := by simpa using h
    simp [this]
  | cons x a' ih =>
    intro b n h
    cases n with
    | zero => simp
    | succ m =>
      simp only [List.cons_append, List.drop_succ_cons]
      exact ih b m (by simpa using h)

/-- The fuel argument of `removeAllF` is irrelevant once it covers the
length of the input. -/
lemma removeAllF_fuel_irrel (pat : List Char) : ∀ f f' (l : List Char),
    l.length ≤ f → l.length ≤ f' → removeAllF pat f l = removeAllF pat f' l := by
  intro f
  induction f with
  | zero =>
    intro f' l h _
    have : l = [] := List.eq_nil_of_length_eq_zero (Nat.le_zero.mp h)
    subst this
    cases f' <;> rfl
  | succ n ih =>
    intro f' l hf hf'
    cases l with
    | nil => cases f' <;> rfl
    | cons c rest =>
      cases f' with
      | zero => simp at hf'
      | succ m =>
        simp only [removeAllF]
        by_cases hc : pat ≠ [] ∧ pat.isPrefixOf (c :: rest) = true
        · rw [if_pos hc, if_pos hc]
          have hlen : (rest.drop (pat.length - 1)).length ≤ rest.length := by
            simp [List.length_drop]
          exact ih m _ (by simp at hf; omega) (by simp at hf'; omega)
        · rw [if_neg hc, if_neg hc]
          exact congrArg (c :: ·) (ih m rest (by simp at hf; omega) (by simp at hf'; omega))

/-- `removeAll` on the empty string. -/
lemma removeAll_nil (pat : List Char) : removeAll pat [] = [] := rfl

/-- Unfolding `removeAll` when the pattern matches at the current
position: the occurrence is skipped. -/
lemma removeAll_cons_hit (pat : List Char) (c : Char) (rest : List Char)
    (h1 : pat ≠ []) (h2 : pat.isPrefixOf (c :: rest) = true) :
    removeAll pat (c :: rest) = removeAll pat (rest.drop (pat.length - 1)) := by
  show removeAllF pat (c :: rest).length (c :: rest) = _
  simp only [List.length_cons, removeAllF]
  rw [if_pos ⟨h1, h2⟩]
  exact removeAllF_fuel_irrel pat rest.length _ _
    (by simp [List.length_drop]) le_rfl

/-- Unfolding `removeAll` when the pattern does not match at the current
position: the character is kept. -/
lemma removeAll_cons_miss (pat : List Char) (c : Char) (rest : List Char)
    (h : ¬(pat ≠ [] ∧ pat.isPrefixOf (c :: rest) = true)) :
    removeAll pat (c :: rest) = c :: removeAll pat rest := by
  show removeAllF pat (c :: rest).length (c :: rest) = _
  simp only [List.length_cons, removeAllF]
  rw [if_neg h]
  rfl

/-- A character absent from the pattern is always kept. -/
lemma removeAll_cons_notmem (pat : List Char) (c : Char) (l : List Char)
    (h : c ∉ pat) : removeAll pat (c :: l) = c :: removeAll pat l := by
  apply removeAll_cons_miss
  rintro ⟨h1, h2⟩
  exact h (mem_of_isPrefixOf_cons h1 h2)

/-- Removal distributes over a newline separator when the pattern contains
no newline: no occurrence can straddle the separator. -/
lemma removeAll_append_newline (pat : List Char) (hne : pat ≠ [])
    (hnl : '\n' ∉ pat) : ∀ (n : Nat) (s u : List Char), s.length ≤ n →
    removeAll pat (s ++ '\n' :: u) = removeAll pat s ++ '\n' :: removeAll pat u := by
  intro n
  induction n with
  | zero =>
    intro s u hs
    have : s = [] := List.eq_nil_of_length_eq_zero (Nat.le_zero.mp hs)
    subst this
    simpa [removeAll_nil] using removeAll_cons_notmem pat '\n' u hnl
  | succ n ih =>
    intro s u hs
    cases s with
    | nil => simpa [removeAll_nil] using removeAll_cons_notmem pat '\n' u hnl
    | cons c s' =>
      simp only [List.cons_append]
      by_cases hw : pat.isPrefixOf (c :: (s' ++ '\n' :: u)) = true
      · obtain ⟨t, ht⟩ := (isPrefixOf_exists pat _).mp hw
        have ht' : pat ++ t = (c :: s') ++ ('\n' :: u) := by simpa using ht
        have hcs : ∃ v, pat ++ v = c :: s' := by
          rcases append_overlap pat (c :: s') t ('\n' :: u) ht' with h | h
          · exact h
          · obtain ⟨v, hv⟩ := h
            cases v with
            | nil => exact ⟨[], by simp [← hv]⟩
            | cons z zs =>
              exfalso
              have hz : (z :: zs) ++ t = '\n' :: u := by
                apply append_cancel_left_char (c :: s')
                rw [← List.append_assoc, hv]
                exact ht'
              have : z = '\n' := ((List.cons.injEq z (zs ++ t) '\n' u).mp hz).1
              apply hnl
              rw [← hv, this]
              simp
        obtain ⟨v, hv⟩ := hcs
        have hk : pat.length ≤ s'.length + 1 := by
          have := congrArg List.length hv
          simp at this
          omega
        have hcsb : pat.isPrefixOf (c :: s') = true :=
          (isPrefixOf_exists pat _).mpr ⟨v, hv⟩
        rw [removeAll_cons_hit pat c (s' ++ '\n' :: u) hne hw,
            removeAll_cons_hit pat c s' hne hcsb]
        have hpos : 1 ≤ pat.length := by
          cases pat with
          | nil => exact absurd rfl hne
          | cons _ _ => simp
        rw [drop_append_of_le s' ('\n' :: u) (pat.length - 1) (by omega)]
        exact ih (s'.drop (pat.length - 1)) u
          (by simp only [List.length_drop, List.length_cons] at hs ⊢; omega)
      · have hcs : pat.isPrefixOf (c :: s') = true → False := by
          intro hb
          obtain ⟨v, hv⟩ := (isPrefixOf_exists pat _).mp hb
          apply hw
          refine (isPrefixOf_exists pat _).mpr ⟨v ++ '\n' :: u, ?_⟩
          rw [← List.append_assoc, hv]
          rfl
        rw [removeAll_cons_miss pat c (s' ++ '\n' :: u) (fun hh => hw hh.2),
            removeAll_cons_miss pat c s' (fun hh => hcs hh.2)]
        rw [ih s' u (by simp only [List.length_cons] at hs; omega)]
        simp

/-- The leading `"```json"` marker of a fenced response is consumed as one
occurrence. -/
lemma removeAll_jsonFence_header (l : List Char) :
    removeAll jsonFence (jsonFence ++ l) = removeAll jsonFence l := by
  have hne : jsonFence ≠ [] := by decide
  have hp : jsonFence.isPrefixOf ('`' :: ('`' :: '`' :: 'j' :: 's' :: 'o' :: 'n' :: l)) = true :=
    (isPrefixOf_exists _ _).mpr ⟨l, rfl⟩
  have h := removeAll_cons_hit jsonFence '`' ('`' :: '`' :: 'j' :: 's' :: 'o' :: 'n' :: l) hne hp
  have hdrop : ('`' :: '`' :: 'j' :: 's' :: 'o' :: 'n' :: l).drop (jsonFence.length - 1) = l := rfl
  rw [hdrop] at h
  exact h

/-- The bare closing fence contains no `"```json"` occurrence. -/
lemma removeAll_jsonFence_tick : removeAll jsonFence tickFence = tickFence := by decide

/-- The bare closing fence is itself removed whole by the second replace. -/
lemma removeAll_tickFence_self : removeAll tickFence tickFence = [] := by decide

/-- The newline is Python whitespace. -/
lemma isPyWs_newline : isPyWs '\n' = true := rfl

/-- Auxiliary for `pyStrip`: a trailing newline is invisible to the
right-strip pass. -/
lemma pyStrip_aux_append_newline : ∀ x : List Char,
    ((List.dropWhile isPyWs (x ++ ['\n'])).reverse.dropWhile isPyWs).reverse
      = ((List.dropWhile isPyWs x).reverse.dropWhile isPyWs).reverse := by
  intro x
  induction x with
  | nil => rfl
  | cons c x' ih =>
    by_cases hc : isPyWs c = true
    · simpa [List.dropWhile_cons, hc] using ih
    · simp only [List.cons_append, List.dropWhile_cons, hc, if_false]
      simp [List.reverse_append, List.dropWhile_cons, isPyWs_newline]

/-- Stripping is blind to a surrounding newline pair. -/
lemma pyStrip_newline_wrap (x : List Char) :
    pyStrip ('\n' :: (x ++ ['\n'])) = pyStrip x := by
  unfold pyStrip
  rw [show List.dropWhile isPyWs ('\n' :: (x ++ ['\n']))
        = List.dropWhile isPyWs (x ++ ['\n']) from by
      simp [List.dropWhile_cons, isPyWs_newline]]
  exact pyStrip_aux_append_newline x

/-- Line 56's cleaning yields the same string on a fenced response as on
the bare response: the fence markers and the newline padding are removed
entirely, whatever the payload is. -/
lemma clean_text_wrapFence (s : List Char) :
    clean_text (wrapFence s) = clean_text s := by
  have h1 : wrapFence s = jsonFence ++ ('\n' :: (s ++ '\n' :: tickFence)) := rfl
  rw [clean_text, clean_text, h1]
  rw [removeAll_jsonFence_header ('\n' :: (s ++ '\n' :: tickFence))]
  rw [removeAll_cons_notmem jsonFence '\n' _ (by decide)]
  rw [removeAll_append_newline jsonFence (by decide) (by decide) s.length s tickFence le_rfl]
  rw [removeAll_jsonFence_tick]
  rw [removeAll_cons_notmem tickFence '\n' _ (by decide)]
  rw [removeAll_append_newline tickFence (by decide) (by decide)
    (removeAll jsonFence s).length (removeAll jsonFence s) tickFence le_rfl]
  rw [removeAll_tickFence_self]
  exact pyStrip_newline_wrap _

/-! ## Claim theorems -/

/-- C1: for every `item_cost`, `probability_percent` and `warranty_cost`,
the verdict is selected in the fixed order with first match winning:
BUY iff `expected_loss > warranty_cost` (strict); otherwise TOSS_UP iff
`net_cost < item_cost * 0.05`; otherwise SKIP. -/
theorem C1_verdict_priority (i p w : ℚ) :
    ((evaluate i p w).verdict = Verdict.BUY ↔ i * (p / 100) > w)
  ∧ ((evaluate i p w).verdict = Verdict.TOSS_UP ↔
      ¬ i * (p / 100) > w ∧ w - i * (p / 100) < i * (0.05 : ℚ))
  ∧ ((evaluate i p w).verdict = Verdict.SKIP ↔
      ¬ i * (p / 100) > w ∧ ¬ w - i * (p / 100) < i * (0.05 : ℚ)) := by
  simp only [evaluate]
  split_ifs with h1 h2 <;> simp_all

/-- C2: for every `item_cost`, `probability_percent` and `warranty_cost`,
negative values included (the binders range over all of ℚ), the evaluation
computes `expected_loss = item_cost * (probability_percent / 100)` and
`net_cost = warranty_cost - expected_loss`. -/
theorem C2_expected_loss_net_cost (i p w : ℚ) :
    (evaluate i p w).expected_loss = i * (p / 100)
  ∧ (evaluate i p w).net_cost = w - i * (p / 100) :=
  ⟨rfl, rfl⟩

/-- C3: whenever the service call raises or the response fails to parse,
the estimator propagates no exception and returns exactly the fixed
fallback estimate
`{probability: 5, reason: "AI Failed, using average", source: "Estimation"}`. -/
theorem C3_fallback_on_failure (api_key name : List Char) (hkey : ¬ pyFalsy api_key) :
    (∀ e, (get_actuarial_data_from_llm api_key name (Except.error e)).result
        = some fallbackEstimate)
  ∧ (∀ t, jsonParse (clean_text t) = none →
      (get_actuarial_data_from_llm api_key name (Except.ok t)).result
        = some fallbackEstimate) := by
  constructor
  · intro e
    simp [get_actuarial_data_from_llm, hkey]
  · intro t ht
    simp [get_actuarial_data_from_llm, hkey, ht]

/-- Witness for C3 at a concrete credential and a concrete raised error. -/
theorem C3_fallback_on_failure_witness :
    ¬ pyFalsy "k".toList
  ∧ (get_actuarial_data_from_llm "k".toList "tv".toList
      (Except.error "boom".toList)).result = some fallbackEstimate :=
  ⟨by decide, (C3_fallback_on_failure "k".toList "tv".toList (by decide)).1 "boom".toList⟩

/-- C4 counterexample: the response `{"a": 1}` is valid JSON missing every
expected key; the estimator does not degrade it to the fallback but hands
the raw dict to the caller, whose `['probability']` access then fails
(line 98 of the source).  The missing-key case is therefore not caught
inside the estimator. -/
theorem C4_missing_keys_counterexample :
    (get_actuarial_data_from_llm "k".toList "tv".toList
        (Except.ok "\x7b\"a\": 1\x7d".toList)).result = some [("a".toList, JVal.int 1)]
  ∧ dictGet "probability".toList [("a".toList, JVal.int 1)] = none
  ∧ ([("a".toList, JVal.int 1)] : JObj) ≠ fallbackEstimate := by
  refine ⟨by decide, by decide, by decide⟩

/-- C4 (amended): network failures and malformed / non-JSON responses are
caught inside the estimator and replaced by the fixed fallback, so no
exception escapes it; but a response that parses as JSON is returned
unchanged without any key validation — missing expected keys are passed
through to the caller. -/
theorem C4_amended_error_containment (api_key name : List Char)
    (hkey : ¬ pyFalsy api_key) :
    (∀ e, (get_actuarial_data_from_llm api_key name (Except.error e)).result
        = some fallbackEstimate)
  ∧ (∀ t, jsonParse (clean_text t) = none →
      (get_actuarial_data_from_llm api_key name (Except.ok t)).result
        = some fallbackEstimate)
  ∧ (∀ t d, jsonParse (clean_text t) = some d →
      (get_actuarial_data_from_llm api_key name (Except.ok t)).result = some d) := by
  refine ⟨?_, ?_, ?_⟩
  · intro e
    simp [get_actuarial_data_from_llm, hkey]
  · intro t ht
    simp [get_actuarial_data_from_llm, hkey, ht]
  · intro t d ht
    simp [get_actuarial_data_from_llm, hkey, ht]

/-- Witness for the amended C4: a concrete parse success is returned
unchanged even though it misses every expected key. -/
theorem C4_amended_error_containment_witness :
    ¬ pyFalsy "k".toList
  ∧ jsonParse (clean_text "\x7b\"a\": 1\x7d".toList) = some [("a".toList, JVal.int 1)]
  ∧ (get_actuarial_data_from_llm "k".toList "tv".toList
      (Except.ok "\x7b\"a\": 1\x7d".toList)).result = some [("a".toList, JVal.int 1)] :=
  ⟨by decide, by decide,
    (C4_amended_error_containment "k".toList "tv".toList (by decide)).2.2
      "\x7b\"a\": 1\x7d".toList [("a".toList, JVal.int 1)] (by decide)⟩

/-- C5: with an absent (empty, hence falsy) credential the estimator
returns `None` with no network call attempted, and its outcome is
deterministic: it does not depend on the service at all. -/
theorem C5_absent_credential (name : List Char)
    (svc svc' : Except (List Char) (List Char)) :
    (get_actuarial_data_from_llm [] name svc).result = none
  ∧ (get_actuarial_data_from_llm [] name svc).network_called = false
  ∧ get_actuarial_data_from_llm [] name svc
      = get_actuarial_data_from_llm [] name svc' :=
  ⟨rfl, rfl, rfl⟩

/-- C6: the three worked examples of spec §8, computed exactly. -/
theorem C6_worked_examples :
    (evaluate 350 12 60).expected_loss = 42
  ∧ (evaluate 350 12 60).net_cost = 18
  ∧ (evaluate 350 12 60).verdict = Verdict.SKIP
  ∧ (evaluate 350 20 60).expected_loss = 70
  ∧ (evaluate 350 20 60).verdict = Verdict.BUY
  ∧ (evaluate 350 17 60).expected_loss = 59.5
  ∧ (evaluate 350 17 60).net_cost = 0.5
  ∧ (evaluate 350 17 60).verdict = Verdict.TOSS_UP := by
  norm_num [evaluate]

/-- C7: a response wrapped in code-fence markers around a payload is
processed to the identical estimator outcome as the bare payload, for
every payload and credential. -/
theorem C7_fence_wrap_invariance (api_key name s : List Char) :
    get_actuarial_data_from_llm api_key name (Except.ok (wrapFence s))
      = get_actuarial_data_from_llm api_key name (Except.ok s) := by
  simp [get_actuarial_data_from_llm, clean_text_wrapFence]

/-- C8: for `item_cost ≥ 0` and probabilities within `[0, 100]`, the
expected loss is monotonically non-decreasing in the probability and in
the item cost. -/
theorem C8_expected_loss_monotone (i i' p p' w : ℚ)
    (hi : 0 ≤ i) (hii : i ≤ i') (hp : 0 ≤ p) (hpp : p ≤ p') (hp' : p' ≤ 100) :
    (evaluate i p w).expected_loss ≤ (evaluate i p' w).expected_loss
  ∧ (evaluate i p w).expected_loss ≤ (evaluate i' p w).expected_loss := by
  constructor
  · show i * (p / 100) ≤ i * (p' / 100)
    exact mul_le_mul_of_nonneg_left (by linarith) hi
  · show i * (p / 100) ≤ i' * (p / 100)
    exact mul_le_mul_of_nonneg_right hii (div_nonneg hp (by norm_num))

/-- Witness for C8 at concrete inputs. -/
theorem C8_expected_loss_monotone_witness :
    (evaluate 100 10 60).expected_loss ≤ (evaluate 100 20 60).expected_loss
  ∧ (evaluate 100 10 60).expected_loss ≤ (evaluate 200 10 60).expected_loss :=
  C8_expected_loss_monotone 100 200 10 20 60 (by norm_num) (by norm_num)
    (by norm_num) (by norm_num) (by norm_num)

/-- C9: the habit rule (carrying the `expected_loss` threshold) is
produced exactly when `expected_loss < warranty_cost` (strict), and the
verdict and numeric fields coincide with their habit-free definitions. -/
theorem C9_habit_rule (i p w : ℚ) :
    ((evaluate i p w).habit = some ((evaluate i p w).expected_loss) ↔ i * (p / 100) < w)
  ∧ ((evaluate i p w).habit = none ↔ ¬ i * (p / 100) < w)
  ∧ (evaluate i p w).verdict = verdictOnly i p w
  ∧ (evaluate i p w).expected_loss = i * (p / 100)
  ∧ (evaluate i p w).net_cost = w - i * (p / 100) := by
  refine ⟨?_, ?_, rfl, rfl, rfl⟩ <;>
    · simp only [evaluate]
      split_ifs with h <;> simp [h]

/-- C10: the cleaning deletes the fence substrings anywhere in the
response, not only as leading or trailing markers: a valid JSON response
whose `reason` string contains a bare ``` run is returned with that run
deleted, differing from what the raw response parses to. -/
theorem C10_global_fence_removal :
    jsonParse backtickResponse
      = some [("probability".toList, JVal.int 9),
              ("reason".toList, JVal.str "avoid ``` fences".toList),
              ("source".toList, JVal.str "Repair db".toList)]
  ∧ clean_text backtickResponse
      = "\x7b\"probability\": 9, \"reason\": \"avoid  fences\", \"source\": \"Repair db\"\x7d".toList
  ∧ (get_actuarial_data_from_llm "k".toList "tv".toList
        (Except.ok backtickResponse)).result
      = some [("probability".toList, JVal.int 9),
              ("reason".toList, JVal.str "avoid  fences".toList),
              ("source".toList, JVal.str "Repair db".toList)]
  ∧ "avoid ``` fences".toList ≠ "avoid  fences".toList := by
  refine ⟨by decide, by decide, by decide, by decide⟩
